import Mathlib

/-!
Shallow embedding of the polynomial library in `src/src/lib.rs` (crate `symba`).

Modelling conventions:
* `Vec<T>` is modelled as `List T`.
* `f64` coefficients are modelled as `ℚ`; every concrete counterexample below uses
  only small integer coefficients, whose `f64` arithmetic is exact, so evaluations
  transfer verbatim to the floating-point code.
* `usize` degrees are modelled as `Nat`; the one subtraction in the source
  (`var.deg -= 1` in `differentiate`) is modelled as truncated `Nat` subtraction,
  and the no-underflow claim is proved separately.
* `HashMap` (used twice inside `simplify`) has unspecified iteration order in Rust;
  it is modelled as an insertion-ordered association list (`entry` keeps the position
  of an existing key, a new key is appended; `drain`/`into_iter` yield insertion
  order).  This is a deterministic refinement of the Rust behaviour; every theorem
  and counterexample below that passes through a map either is order-insensitive or
  uses a map with at most one key, so it holds for any iteration order.
-/

namespace Symba

/-- Rust `PolyVar { sym: String, deg: usize }`: the variable `sym ^ deg`. -/
structure PolyVar where
  sym : String
  deg : Nat
deriving DecidableEq

/-- Rust `PolyTerm { coeff: f64, vars: Vec<PolyVar> }`: the product of `coeff`
and the powers in `vars`. -/
structure PolyTerm where
  coeff : ℚ
  vars : List PolyVar
deriving DecidableEq

/-- Rust `Poly(Vec<PolyTerm>)`: the sum of the terms. -/
abbrev Poly := List PolyTerm

/-- Total degree of a term: `term.vars.iter().map(|var| var.deg).sum()`
(the sort key of the final sort in `simplify`). -/
def PolyTerm.totalDeg (t : PolyTerm) : Nat :=
  (t.vars.map PolyVar.deg).sum

/-- One `m.entry(var.sym).or_insert(0) += var.deg` step on the
`HashMap<String, usize>` of `simplify`, on the association-list model:
an existing key keeps its position, a new key is appended. -/
def insertVar : List (String × Nat) → String → Nat → List (String × Nat)
  | [], sym, deg => [(sym, 0 + deg)]
  | (s, d) :: m, sym, deg =>
      if s = sym then (s, d + deg) :: m else (s, d) :: insertVar m sym deg

/-- The duplicate-variable merge of `simplify`: `while let Some(var) = term.vars.pop()`
feeds the variables back to front into the map, which is then drained into the
(now empty) `term.vars`. -/
def mergeVars (vars : List PolyVar) : List PolyVar :=
  (vars.reverse.foldl (fun m v => insertVar m v.sym v.deg) []).map fun sd => ⟨sd.1, sd.2⟩

/-- One `m.entry(term.vars).or_insert(0.) += term.coeff` step on the
`HashMap<Vec<PolyVar>, f64>` of `simplify`. -/
def insertTerm : List (List PolyVar × ℚ) → List PolyVar → ℚ → List (List PolyVar × ℚ)
  | [], vars, coeff => [(vars, 0 + coeff)]
  | (vs, c) :: m, vars, coeff =>
      if vs = vars then (vs, c + coeff) :: m else (vs, c) :: insertTerm m vars coeff

/-- The like-term merge of `simplify`: `while let Some(term) = self.0.pop()` feeds the
terms back to front into the map, which is then moved into the (now empty) term list. -/
def mergeTerms (ts : List PolyTerm) : List PolyTerm :=
  (ts.reverse.foldl (fun m t => insertTerm m t.vars t.coeff) []).map fun vc => ⟨vc.2, vc.1⟩

/-- The comparison of `term.vars.sort_by(|var1, var2| var1.sym.cmp(&var2.sym))`:
`sym₁` is at most `sym₂` in the lexicographic order `String::cmp` uses (byte order on
UTF-8, which agrees with the code-point order of `List.lt` on the char data). -/
def varLe (v1 v2 : PolyVar) : Prop := ¬ List.lt v2.sym.data v1.sym.data

instance : DecidableRel varLe := fun v1 v2 =>
  @instDecidableNot _ (List.hasDecidableLt v2.sym.data v1.sym.data)

/-- The ascending key order of
`self.0.sort_by_key(|term| term.vars.iter().map(|var| var.deg).sum())`. -/
def termDegLe (t1 t2 : PolyTerm) : Prop := t1.totalDeg ≤ t2.totalDeg

instance : DecidableRel termDegLe := fun t1 t2 =>
  inferInstanceAs (Decidable (t1.totalDeg ≤ t2.totalDeg))

instance : IsTotal PolyTerm termDegLe := ⟨fun t1 t2 => Nat.le_total t1.totalDeg t2.totalDeg⟩

instance : IsTrans PolyTerm termDegLe := ⟨fun _ _ _ h1 h2 => Nat.le_trans h1 h2⟩

/-- Rust `Poly::simplify`, step by step as in the source:
1. drop terms with zero coefficient;
2. drop variables of degree 0;
3. merge duplicate variables inside each term through the string-keyed map;
4. sort each term's variables by symbol (`sort_by` is stable; insertion sort
   with a `≤` comparison realises exactly the stable ascending sort);
5. merge like terms through the variable-list-keyed map;
6. stable-sort by total degree ascending and reverse.
(The source has no second zero-coefficient sweep after step 5.) -/
def Poly.simplify (p : Poly) : Poly :=
  let ts1 := p.filter fun t => decide (t.coeff ≠ 0)
  let ts2 := ts1.map fun t => { t with vars := t.vars.filter fun v => decide (v.deg ≠ 0) }
  let ts3 := ts2.map fun t => { t with vars := mergeVars t.vars }
  let ts4 := ts3.map fun t => { t with vars := t.vars.insertionSort varLe }
  let ts5 := mergeTerms ts4
  (ts5.insertionSort termDegLe).reverse

/-- Rust `Poly::substitute(sym, val)`: walk the variables of a term in order; on each
variable whose symbol matches, multiply the running coefficient by `val ^ deg`
(`val.powi(var.deg as i32)` with a non-negative exponent) and set the degree to 0. -/
def substTermAux (sym : String) (val : ℚ) : ℚ → List PolyVar → ℚ × List PolyVar
  | c, [] => (c, [])
  | c, v :: vs =>
      if v.sym = sym then
        let r := substTermAux sym val (c * val ^ v.deg) vs
        (r.1, ⟨v.sym, 0⟩ :: r.2)
      else
        let r := substTermAux sym val c vs
        (r.1, v :: r.2)

/-- Rust `Poly::substitute`: the per-term loop applied to every term. -/
def Poly.substitute (p : Poly) (sym : String) (val : ℚ) : Poly :=
  p.map fun t =>
    let r := substTermAux sym val t.coeff t.vars
    ⟨r.1, r.2⟩

/-- The per-term body of `Poly::differentiate`:
`term.vars.iter_mut().find(|var| var.sym == sym)` mutates the first matching
variable (`coeff *= deg; deg -= 1`); with no match the coefficient becomes 0.
`usize` subtraction is modelled as truncated `Nat` subtraction. -/
def diffTermAux (sym : String) (c : ℚ) : List PolyVar → ℚ × List PolyVar
  | [] => (0, [])
  | v :: vs =>
      if v.sym = sym then (c * (v.deg : ℚ), ⟨v.sym, v.deg - 1⟩ :: vs)
      else
        let r := diffTermAux sym c vs
        (r.1, v :: r.2)

/-- Rust `Poly::differentiate`: `simplify`, apply the power rule per term, `simplify` again. -/
def Poly.differentiate (p : Poly) (sym : String) : Poly :=
  Poly.simplify <|
    (Poly.simplify p).map fun t =>
      let r := diffTermAux sym t.coeff t.vars
      ⟨r.1, r.2⟩

/-- The per-term body of `Poly::integrate`: the first matching variable gets
`deg += 1; coeff /= deg` (the new degree); with no match, `⟨sym, 1⟩` is pushed
onto the end of the variable list. -/
def intTermAux (sym : String) (c : ℚ) : List PolyVar → ℚ × List PolyVar
  | [] => (c, [⟨sym, 1⟩])
  | v :: vs =>
      if v.sym = sym then (c / ((v.deg + 1 : Nat) : ℚ), ⟨v.sym, v.deg + 1⟩ :: vs)
      else
        let r := intTermAux sym c vs
        (r.1, v :: r.2)

/-- Rust `Poly::integrate`: `simplify`, apply the reverse power rule per term, `simplify` again. -/
def Poly.integrate (p : Poly) (sym : String) : Poly :=
  Poly.simplify <|
    (Poly.simplify p).map fun t =>
      let r := intTermAux sym t.coeff t.vars
      ⟨r.1, r.2⟩

/-- Rust `<Poly as Add>::add`: `self.0.extend(rhs.0)`. -/
def Poly.add (a b : Poly) : Poly := a ++ b

/-- Rust `<Poly as Neg>::neg`: `term.coeff *= -1.` on every term. -/
def Poly.neg (a : Poly) : Poly := a.map fun t => ⟨t.coeff * (-1), t.vars⟩

/-- Rust `<Poly as Sub>::sub`: `self.0.extend(rhs.neg().0)`. -/
def Poly.sub (a b : Poly) : Poly := a ++ Poly.neg b

/-- Rust `<&Poly as Mul>::mul`: two nested loops pushing one product term per pair. -/
def Poly.mul (a b : Poly) : Poly :=
  a.foldl (fun res t1 => b.foldl (fun res t2 =>
    res ++ [⟨t1.coeff * t2.coeff, t1.vars ++ t2.vars⟩]) res) []

/-- Rust `<PolyVar as Display>::fmt`, writing into an accumulator string the way the
Rust formatter does: the symbol (parenthesised when `self.sym.len() != 1`; Rust
`str::len` counts UTF-8 bytes), then the degree unless it is 1 (`usize` prints
in decimal, as `Nat.repr` does). -/
def PolyVar.fmt (v : PolyVar) (acc : String) : String :=
  let acc1 := if v.sym.utf8ByteSize = 1 then acc ++ v.sym else acc ++ "(" ++ v.sym ++ ")"
  if v.deg ≠ 1 then acc1 ++ v.deg.repr else acc1

/-- Rendering of a single variable: `format!("{}", var)` starts from an empty buffer. -/
def PolyVar.render (v : PolyVar) : String := v.fmt ""

/-- Rendering rule for one variable exactly as the spec sentence states it:
parentheses iff the symbol is not a single **character**; degree omitted iff it is
exactly 1. -/
def varRenderSpec (v : PolyVar) : String :=
  (if v.sym.length = 1 then v.sym else "(" ++ v.sym ++ ")") ++
    (if v.deg = 1 then "" else v.deg.repr)

/-- Rendering rule with the test the code actually performs: parentheses iff the
symbol's UTF-8 encoding is not a single **byte** (`self.sym.len() == 1` counts
bytes); degree omitted iff it is exactly 1. -/
def varRenderByteSpec (v : PolyVar) : String :=
  (if v.sym.utf8ByteSize = 1 then v.sym else "(" ++ v.sym ++ ")") ++
    (if v.deg = 1 then "" else v.deg.repr)

/-- The raw polynomial `x + (-1)x`: a cancelling pair of like terms, mathematically
the zero polynomial. -/
def pCancel : Poly := [⟨1, [⟨"x", 1⟩]⟩, ⟨-1, [⟨"x", 1⟩]⟩]

/-! ### Supporting lemmas -/

lemma foldl_push_map (b : Poly) (t1 : PolyTerm) :
    ∀ acc : Poly,
      b.foldl (fun res t2 => res ++ [⟨t1.coeff * t2.coeff, t1.vars ++ t2.vars⟩]) acc
        = acc ++ b.map fun t2 => ⟨t1.coeff * t2.coeff, t1.vars ++ t2.vars⟩ := by
  induction b with
  | nil => simp
  | cons t2 b ih => intro acc; simp [List.foldl_cons, ih]

lemma mul_eq_bind (a b : Poly) :
    Poly.mul a b
      = a.flatMap fun t1 => b.map fun t2 => ⟨t1.coeff * t2.coeff, t1.vars ++ t2.vars⟩ := by
  unfold Poly.mul
  suffices h : ∀ acc : Poly,
      a.foldl (fun res t1 => b.foldl (fun res t2 =>
          res ++ [⟨t1.coeff * t2.coeff, t1.vars ++ t2.vars⟩]) res) acc
        = acc ++ a.flatMap fun t1 => b.map fun t2 => ⟨t1.coeff * t2.coeff, t1.vars ++ t2.vars⟩ by
    simpa using h []
  induction a with
  | nil => simp
  | cons t1 a ih =>
    intro acc
    rw [List.foldl_cons, ih, foldl_push_map]
    simp [List.append_assoc]

lemma mem_insertVar_pos {m : List (String × Nat)} {sym : String} {deg : Nat}
    (hm : ∀ sd ∈ m, 1 ≤ sd.2) (hd : 1 ≤ deg) :
    ∀ sd ∈ insertVar m sym deg, 1 ≤ sd.2 := by
  induction m with
  | nil =>
    intro sd h
    simp only [insertVar, List.mem_singleton] at h
    subst h; omega
  | cons head tail ih =>
    intro sd h
    rw [insertVar] at h
    by_cases hc : head.1 = sym
    · simp only [hc, if_pos rfl] at h
      rcases List.mem_cons.mp h with h | h
      · subst h
        have := hm head (List.mem_cons_self _ _)
        simp only
        omega
      · exact hm sd (List.mem_cons_of_mem _ h)
    · simp only [if_neg hc] at h
      rcases List.mem_cons.mp h with h | h
      · subst h; exact hm head (List.mem_cons_self _ _)
      · exact ih (fun sd hsd => hm sd (List.mem_cons_of_mem _ hsd)) sd h

lemma foldl_insertVar_pos :
    ∀ (l : List PolyVar) (m : List (String × Nat)),
      (∀ sd ∈ m, 1 ≤ sd.2) → (∀ v ∈ l, 1 ≤ v.deg) →
      ∀ sd ∈ l.foldl (fun m v => insertVar m v.sym v.deg) m, 1 ≤ sd.2 := by
  intro l
  induction l with
  | nil => intro m hm _; simpa using hm
  | cons v l ih =>
    intro m hm hl
    exact ih _ (mem_insertVar_pos hm (hl v (List.mem_cons_self _ _)))
      fun u hu => hl u (List.mem_cons_of_mem _ hu)

lemma mergeVars_deg_pos {vars : List PolyVar} (h : ∀ v ∈ vars, 1 ≤ v.deg) :
    ∀ v ∈ mergeVars vars, 1 ≤ v.deg := by
  intro v hv
  unfold mergeVars at hv
  rcases List.mem_map.mp hv with ⟨sd, hsd, rfl⟩
  exact foldl_insertVar_pos vars.reverse [] (by simp)
    (fun u hu => h u (List.mem_reverse.mp hu)) sd hsd

lemma mem_insertTerm_keys {m : List (List PolyVar × ℚ)} {vars : List PolyVar} {coeff : ℚ} :
    ∀ vc ∈ insertTerm m vars coeff, vc.1 ∈ m.map Prod.fst ∨ vc.1 = vars := by
  induction m with
  | nil =>
    intro vc h
    simp only [insertTerm, List.mem_singleton] at h
    subst h; right; rfl
  | cons head tail ih =>
    intro vc h
    rw [insertTerm] at h
    by_cases hc : head.1 = vars
    · simp only [hc, if_pos rfl] at h
      rcases List.mem_cons.mp h with h | h
      · subst h; right; rfl
      · left; exact List.mem_map.mpr ⟨vc, List.mem_cons_of_mem _ h, rfl⟩
    · simp only [if_neg hc] at h
      rcases List.mem_cons.mp h with h | h
      · subst h; left; exact List.mem_map.mpr ⟨head, (List.mem_cons_self _ _), rfl⟩
      · rcases ih vc h with h2 | h2
        · left
          rcases List.mem_map.mp h2 with ⟨u, hu, he⟩
          exact List.mem_map.mpr ⟨u, List.mem_cons_of_mem _ hu, he⟩
        · right; exact h2

lemma foldl_insertTerm_keys :
    ∀ (l : List PolyTerm) (m : List (List PolyVar × ℚ)),
      ∀ vc ∈ l.foldl (fun m t => insertTerm m t.vars t.coeff) m,
        vc.1 ∈ m.map Prod.fst ∨ ∃ t ∈ l, t.vars = vc.1 := by
  intro l
  induction l with
  | nil => intro m vc h; left; exact List.mem_map.mpr ⟨vc, h, rfl⟩
  | cons t l ih =>
    intro m vc h
    rcases ih _ vc h with h2 | h2
    · rcases List.mem_map.mp h2 with ⟨u, hu, he⟩
      rcases mem_insertTerm_keys u hu with h3 | h3
      · left; rw [← he]; exact h3
      · right; exact ⟨t, (List.mem_cons_self _ _), by rw [← he, h3]⟩
    · rcases h2 with ⟨u, hu, he⟩
      right; exact ⟨u, List.mem_cons_of_mem _ hu, he⟩

lemma mem_mergeTerms_vars {ts : List PolyTerm} {t : PolyTerm} (h : t ∈ mergeTerms ts) :
    ∃ t0 ∈ ts, t0.vars = t.vars := by
  unfold mergeTerms at h
  rcases List.mem_map.mp h with ⟨vc, hvc, rfl⟩
  rcases foldl_insertTerm_keys ts.reverse [] vc hvc with h2 | h2
  · simp at h2
  · rcases h2 with ⟨t0, ht0, he⟩
    exact ⟨t0, List.mem_reverse.mp ht0, he⟩

end Symba

namespace Symba

/-! ### Claim theorems -/

/-- Claim C4 (confirmed). Degree ordering: after `simplify`, any two adjacent terms
`t_i`, `t_{i+1}` satisfy `totalDeg t_{i+1} ≤ totalDeg t_i` — the term list is sorted
by total degree, descending. -/
theorem simplify_sorted_by_degree_desc (p : Poly) :
    (Poly.simplify p).Chain' fun ti tj => tj.totalDeg ≤ ti.totalDeg := by
  have hs : List.Sorted termDegLe
      ((mergeTerms (((p.filter fun t => decide (t.coeff ≠ 0)).map fun t =>
          { t with vars := t.vars.filter fun v => decide (v.deg ≠ 0) }).map (fun t =>
          { t with vars := mergeVars t.vars }) |>.map fun t =>
          { t with vars := t.vars.insertionSort varLe })).insertionSort termDegLe) :=
    List.sorted_insertionSort termDegLe _
  have hp := List.pairwise_reverse.mpr hs
  exact List.Pairwise.chain' hp

/-- Claim C6 (confirmed). Multiplication is the Cartesian product of the term lists:
the result is exactly one term per pair, with multiplied coefficients and
concatenated variable sequences (no merging), and its length is the product of
the operand lengths. -/
theorem mul_cartesian_product (a b : Poly) :
    Poly.mul a b
        = (a.flatMap fun t1 => b.map fun t2 => ⟨t1.coeff * t2.coeff, t1.vars ++ t2.vars⟩)
      ∧ (Poly.mul a b).length = a.length * b.length := by
  refine ⟨mul_eq_bind a b, ?_⟩
  rw [mul_eq_bind a b]
  induction a with
  | nil => simp
  | cons t1 a ih => simp [ih, Nat.succ_mul, Nat.add_comm]

/-- Claim C8 (confirmed). Subtraction is addition of the negation: `sub a b` is
definitionally `add a (neg b)`, i.e. `a`'s terms followed by `b`'s terms with
each coefficient multiplied by `-1` and the variables untouched. -/
theorem sub_eq_add_neg_terms (a b : Poly) :
    Poly.sub a b = Poly.add a (Poly.neg b)
      ∧ Poly.sub a b = a ++ b.map fun t => ⟨t.coeff * (-1), t.vars⟩ :=
  ⟨rfl, rfl⟩

/-- Claim C10 (confirmed). After `simplify`, every variable of every term has degree
at least 1: the zero-degree filter runs before the merge, and merged degrees are
sums of positive degrees.  Hence the decrement `var.deg -= 1` that `differentiate`
performs on a variable found in a simplified term never underflows the unsigned
degree. -/
theorem simplify_var_deg_pos (p : Poly) (t : PolyTerm) (v : PolyVar)
    (ht : t ∈ Poly.simplify p) (hv : v ∈ t.vars) : 1 ≤ v.deg := by
  simp only [Poly.simplify] at ht
  rw [List.mem_reverse, List.mem_insertionSort] at ht
  rcases mem_mergeTerms_vars ht with ⟨t4, ht4, he⟩
  rw [← he] at hv
  rcases List.mem_map.mp ht4 with ⟨t3, ht3, rfl⟩
  simp only [List.mem_insertionSort] at hv
  rcases List.mem_map.mp ht3 with ⟨t2, ht2, rfl⟩
  simp only at hv
  refine mergeVars_deg_pos ?_ v hv
  intro u hu
  rcases List.mem_map.mp ht2 with ⟨t1, _, rfl⟩
  simp only at hu
  have h2 : u.deg ≠ 0 := by simpa using (List.mem_filter.mp hu).2
  omega

unseal Rat.add in
theorem simplify_var_deg_pos_witness : 1 ≤ (PolyVar.mk "x" 3).deg :=
  simplify_var_deg_pos [⟨2, [⟨"x", 3⟩]⟩] ⟨2, [⟨"x", 3⟩]⟩ ⟨"x", 3⟩ (by decide) (by decide)

lemma substTermAux_closed (sym : String) (val : ℚ) :
    ∀ (c : ℚ) (vs : List PolyVar),
      substTermAux sym val c vs
        = (c * ((vs.filter fun v => decide (v.sym = sym)).map fun v => val ^ v.deg).prod,
           vs.map fun v => if v.sym = sym then ⟨v.sym, 0⟩ else v) := by
  intro c vs
  induction vs generalizing c with
  | nil => simp [substTermAux]
  | cons v vs ih =>
    by_cases h : v.sym = sym
    · simp [substTermAux, h, ih, mul_assoc]
    · simp [substTermAux, h, ih]

/-- Claim C7 (confirmed). `substitute p sym val` multiplies each term's coefficient by
`val ^ deg` once for every variable carrying `sym`, sets exactly those degrees to 0,
leaves all other variables and all terms without `sym` untouched, and — being total —
never fails; on a polynomial not mentioning `sym` it is a no-op. -/
theorem substitute_spec (p : Poly) (sym : String) (val : ℚ) :
    Poly.substitute p sym val
        = (p.map fun t =>
            ⟨t.coeff * ((t.vars.filter fun v => decide (v.sym = sym)).map
                fun v => val ^ v.deg).prod,
             t.vars.map fun v => if v.sym = sym then ⟨v.sym, 0⟩ else v⟩)
      ∧ ((∀ t ∈ p, ∀ v ∈ t.vars, v.sym ≠ sym) → Poly.substitute p sym val = p) := by
  have h1 : Poly.substitute p sym val
      = p.map fun t =>
          ⟨t.coeff * ((t.vars.filter fun v => decide (v.sym = sym)).map
              fun v => val ^ v.deg).prod,
           t.vars.map fun v => if v.sym = sym then ⟨v.sym, 0⟩ else v⟩ := by
    unfold Poly.substitute
    refine List.map_congr_left fun t _ => ?_
    rw [substTermAux_closed]
  refine ⟨h1, fun hnone => ?_⟩
  rw [h1]
  conv_rhs => rw [← List.map_id p]
  refine List.map_congr_left fun t ht => ?_
  have hfil : (t.vars.filter fun v => decide (v.sym = sym)) = [] :=
    List.filter_eq_nil_iff.mpr fun v hv => by simpa using hnone t ht v hv
  have hmap : (t.vars.map fun v => if v.sym = sym then (⟨v.sym, 0⟩ : PolyVar) else v)
      = t.vars := by
    conv_rhs => rw [← List.map_id t.vars]
    refine List.map_congr_left fun v hv => ?_
    rw [if_neg (hnone t ht v hv)]
    rfl
  rw [hfil, hmap]
  simp

theorem substitute_spec_witness :
    Poly.substitute [⟨2, [⟨"x", 1⟩]⟩] "y" 3 = [⟨2, [⟨"x", 1⟩]⟩] :=
  (substitute_spec [⟨2, [⟨"x", 1⟩]⟩] "y" 3).2 (by decide)

/-- Claim C9 (counterexample). The symbol `"α"` is a single character, so the claim
says it must not be parenthesised; but its UTF-8 encoding is two bytes, so
`<PolyVar as Display>::fmt` parenthesises it: the rendered text differs from the
claimed rule. -/
theorem render_differs_from_char_rule :
    PolyVar.render ⟨"α", 2⟩ ≠ varRenderSpec ⟨"α", 2⟩
      ∧ ("α" : String).length = 1
      ∧ PolyVar.render ⟨"α", 2⟩ = "(α)2" := by
  refine ⟨by decide, by decide, by decide⟩

/-- Claim C9 (amended, proved). A variable renders as its symbol, wrapped in
parentheses iff the symbol's UTF-8 encoding is not a single byte, followed by its
degree, omitted iff the degree is exactly 1.  (For ASCII symbols — the only kind the
spec's examples use — bytes and characters coincide, so the amendment only moves
non-ASCII symbols.) -/
theorem render_eq_byte_rule (v : PolyVar) : PolyVar.render v = varRenderByteSpec v := by
  unfold PolyVar.render PolyVar.fmt varRenderByteSpec
  by_cases h1 : v.sym.utf8ByteSize = 1 <;> by_cases h2 : v.deg = 1 <;>
    simp [h1, h2, String.empty_append, String.append_empty]

unseal Rat.add in
/-- Claim C1 (code bug, evaluation). `pCancel` and `[]` both denote the zero
polynomial, yet `simplify` sends them to different values: merging the like terms
cancels the coefficient to 0 and no second zero-coefficient sweep removes the term,
so canonical uniqueness fails. -/
theorem simplify_not_unique_eval :
    Poly.simplify pCancel = [⟨0, [⟨"x", 1⟩]⟩]
      ∧ Poly.simplify ([] : Poly) = ([] : Poly)
      ∧ Poly.simplify pCancel ≠ Poly.simplify ([] : Poly) := by
  refine ⟨by decide, by decide, by decide⟩

unseal Rat.add in
/-- Claim C2 (code bug, evaluation). After `simplify`, `x + (-1)x` still contains a
term with coefficient 0: cancellation in the like-term merge produces the zero and
the zero-coefficient filter only ran before the merge. -/
theorem simplify_keeps_zero_coeff_eval :
    Poly.simplify pCancel = [⟨0, [⟨"x", 1⟩]⟩]
      ∧ ∃ t ∈ Poly.simplify pCancel, t.coeff = 0 := by
  refine ⟨by decide, by decide⟩

unseal Rat.add in
/-- Claim C3 (code bug, evaluation). `simplify` is not idempotent: on `x + (-1)x` one
application leaves the cancelled term `0·x`, and the second application's
zero-coefficient filter then removes it. -/
theorem simplify_not_idempotent_eval :
    Poly.simplify pCancel = [⟨0, [⟨"x", 1⟩]⟩]
      ∧ Poly.simplify (Poly.simplify pCancel) = ([] : Poly)
      ∧ Poly.simplify (Poly.simplify pCancel) ≠ Poly.simplify pCancel := by
  refine ⟨by decide, by decide, by decide⟩

unseal Rat.add Rat.mul in
/-- Claim C5 (code bug, evaluation). The differentiate-after-integrate roundtrip does
not reproduce `simplify p` when `simplify p` retains a cancelled `0·x` term: the
roundtrip's internal `simplify` calls drop that term, so the results differ. -/
theorem diff_int_roundtrip_fails_eval :
    Poly.differentiate (Poly.integrate (Poly.simplify pCancel) "x") "x" = ([] : Poly)
      ∧ Poly.simplify pCancel = [⟨0, [⟨"x", 1⟩]⟩]
      ∧ Poly.differentiate (Poly.integrate (Poly.simplify pCancel) "x") "x"
          ≠ Poly.simplify pCancel := by
  refine ⟨by decide, by decide, by decide⟩

end Symba
